import Mathlib

/-!
Verification of the Aggregator component of the solar dashboard
(src/app/utils.py and src/app/main.py).

The tabular data model is embedded shallowly: a table is an ordered list of
named columns together with a list of rows, each row a list of cell values.
Cell values are numeric (modelled as rationals), text, or missing.  Missing
values play the role of the not-a-number marker produced by the dataframe
library; the skip-missing semantics of its aggregations (mean, median, max,
min) is embedded explicitly.  Sorts performed by the dataframe library are
embedded with a deterministic merge sort (group keys ascending when grouping;
value sorts descending with missing values last).  The default sort kind of
the library does not document its order on exact ties, so no general theorem
below depends on the tie order of the embedded sort; concrete evaluations
involving ties are confined to inputs small enough that the tie behaviour of
the library is known.
-/

unseal List.merge List.mergeSort Rat.add Rat.mul Rat.inv Rat.sub

namespace Solar

/-- Cell value of a table: a rational number, a text value, or missing (NaN). -/
inductive Value where
  | num (q : ℚ)
  | str (s : String)
  | na
deriving DecidableEq, Repr

/-- Table: ordered column names plus rows of cell values, as loaded from CSV. -/
structure Table where
  cols : List String
  rows : List (List Value)
deriving DecidableEq, Repr

/-- Index of the first column with the given name, if any. -/
def colIdx (c : String) : List String → Option Nat
  | [] => none
  | h :: t => if h = c then some 0 else (colIdx c t).map (· + 1)

/-- Column access df[c]: the list of cell values of column c, or a
key-not-found failure when the column is absent. -/
def getCol (t : Table) (c : String) : Option (List Value) :=
  (colIdx c t.cols).map (fun i => t.rows.map (fun r => r.getD i Value.na))

/-- Numeric view of a cell, missing for text and NaN cells. -/
def Value.toNum : Value → Option ℚ
  | .num q => some q
  | _ => none

/-- Valid numeric values of a column, in row order (skip-missing semantics). -/
def numsOf (vals : List Value) : List ℚ := vals.filterMap Value.toNum

/-- Arithmetic mean, NaN (none) on the empty list, as Series.mean. -/
def qMean (l : List ℚ) : Option ℚ :=
  if l.length = 0 then none else some (l.sum / l.length)

/-- Median: middle of the sorted data, averaging the two middle values for
even counts, NaN on the empty list, as Series.median. -/
def qMedian (l : List ℚ) : Option ℚ :=
  let s := l.mergeSort (fun a b => decide (a ≤ b))
  if s.length = 0 then none
  else if s.length % 2 = 1 then some (s.getD (s.length / 2) 0)
  else some ((s.getD (s.length / 2 - 1) 0 + s.getD (s.length / 2) 0) / 2)

/-- Maximum, NaN on the empty list, as Series.max. -/
def qMax : List ℚ → Option ℚ
  | [] => none
  | x :: xs => some (xs.foldl max x)

/-- Minimum, NaN on the empty list, as Series.min. -/
def qMin : List ℚ → Option ℚ
  | [] => none
  | x :: xs => some (xs.foldl min x)

/-- Four summary scalars of the key-metrics row. -/
structure Summary where
  average : Option ℚ
  median : Option ℚ
  maxv : Option ℚ
  minv : Option ℚ
deriving DecidableEq, Repr

/-- Summary computation of display_metrics (src/app/main.py lines 140-178):
df[kpi].mean(), .median(), .max(), .min() over the selected KPI column. -/
def compute_summary (t : Table) (c : String) : Option Summary :=
  (getCol t c).map fun vals =>
    { average := qMean (numsOf vals)
      median := qMedian (numsOf vals)
      maxv := qMax (numsOf vals)
      minv := qMin (numsOf vals) }

/-- Test whether pat occurs at the head of l. -/
def subAt : List Char → List Char → Bool
  | [], _ => true
  | _ :: _, [] => false
  | a :: as, b :: bs => a == b && subAt as bs

/-- Test whether pat occurs anywhere in l. -/
def hasSub (pat : List Char) : List Char → Bool
  | [] => subAt pat []
  | h :: t => subAt pat (h :: t) || hasSub pat t

/-- Python substring containment: pat in s. -/
def strContains (s pat : String) : Bool := hasSub pat.toList s.toList

/-- Column renaming of top_regions (src/app/utils.py line 99): a column whose
name contains the text Region is relabelled Region, else one containing the
text index is relabelled Index, and any other column gets the name of the
ranking column. -/
def renameCol (column col : String) : String :=
  if strContains col "Region" then "Region"
  else if strContains col "index" then "Index"
  else column

/-- Lexicographic comparison of character lists, by code point. -/
def charsLe : List Char → List Char → Bool
  | [], _ => true
  | _ :: _, [] => false
  | a :: as, b :: bs => if a = b then charsLe as bs else decide (a < b)

/-- Lexicographic comparison of text values, by code point. -/
def strLe (s t : String) : Bool := charsLe s.toList t.toList

/-- Ascending order on cell values used for group keys: missing first, then
numbers by value, then text by lexicographic order.  On a homogeneous column
this is exactly the ascending key order of the grouping operation. -/
def vle (a b : Value) : Bool :=
  match a, b with
  | .na, _ => true
  | _, .na => false
  | .num p, .num q => decide (p ≤ q)
  | .num _, .str _ => true
  | .str _, .num _ => false
  | .str s, .str t => strLe s t

/-- Descending order on cell values used by sort_values(ascending=False) with
missing values last: numbers by descending value, text by descending
lexicographic order, missing after everything. -/
def vge (a b : Value) : Bool :=
  match a, b with
  | .na, .na => true
  | .na, _ => false
  | _, .na => true
  | .num p, .num q => decide (q ≤ p)
  | .num _, .str _ => true
  | .str _, .num _ => false
  | .str s, .str t => strLe t s

/-- Descending order on optional means, missing (NaN) means last. -/
def omGe (a b : Option ℚ) : Bool :=
  match a, b with
  | none, none => true
  | none, some _ => false
  | some _, none => true
  | some p, some q => decide (q ≤ p)

/-- Cell rendering of an optional mean: NaN when undefined. -/
def omVal : Option ℚ → Value
  | some q => .num q
  | none => .na

/-- Distinct group keys of a grouping column in ascending order, missing keys
dropped, as produced by groupby with its default ascending key sort. -/
def groupKeys (region : List Value) : List Value :=
  ((region.filter (fun v => v != Value.na)).dedup).mergeSort vle

/-- Rows of the ranking column that belong to the group with key k. -/
def groupRows (region vals : List Value) (k : Value) : List Value :=
  ((region.zip vals).filter (fun p => p.1 == k)).map Prod.snd

/-- Per-group means of groupby(Region)[column].mean(): for each distinct key
in ascending order, the skip-missing mean of the ranking column over the rows
of that group. -/
def groupMeans (region vals : List Value) : List (Value × Option ℚ) :=
  (groupKeys region).map (fun k => (k, qMean (numsOf (groupRows region vals k))))

/-- Embedding of top_regions (src/app/utils.py lines 74-101).  When a column
named Region exists the per-group means of the ranking column are sorted
descending (NaN last), the first n are kept, and reset_index yields the two
columns Region and the ranking column.  Otherwise the rows of the ranking
column are sorted descending (NaN last), the first n are kept, and
reset_index exposes the original positional index.  Finally every column
name is renamed by renameCol.  Both descending sorts are embedded as a
deterministic merge sort; the default sort kind of the library does not
document its order on exact ties.  The result is a column-not-found failure
exactly when the ranking column is absent. -/
def topRegions (df : Table) (column : String) (n : Nat) : Option Table :=
  if "Region" ∈ df.cols then
    match getCol df "Region", getCol df column with
    | some region, some vals =>
      let top_df : Table :=
        { cols := ["Region", column]
          rows := (((groupMeans region vals).mergeSort
              (fun a b => omGe a.2 b.2)).take n).map (fun p => [p.1, omVal p.2]) }
      some { top_df with cols := top_df.cols.map (renameCol column) }
    | _, _ => none
  else
    match getCol df column with
    | some vals =>
      let top_df : Table :=
        { cols := ["index", column]
          rows := ((vals.enum.mergeSort
              (fun a b => vge a.2 b.2)).take n).map
            (fun p => [Value.num (p.1 : ℚ), p.2]) }
      some { top_df with cols := top_df.cols.map (renameCol column) }
    | none => none

/-- State-passing rendering of a call to top_regions: the pair holds the
return value and the binding of the caller for df after the call returns.
Every dataframe operation in the body (column selection, groupby, mean,
sort_values, head, reset_index) produces a fresh frame and the single
assignment in the body, to the columns of top_df, targets that local frame,
so the caller still holds the input table unchanged. -/
def topRegionsRun (df : Table) (column : String) (n : Nat) :
    Option Table × Table :=
  if "Region" ∈ df.cols then
    match getCol df "Region", getCol df column with
    | some region, some vals =>
      let top_df : Table :=
        { cols := ["Region", column]
          rows := (((groupMeans region vals).mergeSort
              (fun a b => omGe a.2 b.2)).take n).map (fun p => [p.1, omVal p.2]) }
      let top_df : Table := { top_df with cols := top_df.cols.map (renameCol column) }
      (some top_df, df)
    | _, _ => (none, df)
  else
    match getCol df column with
    | some vals =>
      let top_df : Table :=
        { cols := ["index", column]
          rows := ((vals.enum.mergeSort
              (fun a b => vge a.2 b.2)).take n).map
            (fun p => [Value.num (p.1 : ℚ), p.2]) }
      let top_df : Table := { top_df with cols := top_df.cols.map (renameCol column) }
      (some top_df, df)
    | none => (none, df)

/-- Top-regions table rendered by display_main_content (src/app/main.py lines
193-196): top_regions(df, column=kpi_column), with the default n=10.  The
grouping selection x of the sidebar is in scope there but is not passed. -/
def display_main_content_top (df : Table) (kpi : String)
    (x : Option String) : Option Table :=
  topRegions df kpi 10

/-- Group keys of a grouping column in first-encountered order (the order in
which distinct non-missing keys first appear in the column). -/
def firstSeen : List Value → List Value
  | [] => []
  | h :: t => h :: (firstSeen t).filter (fun v => v != h)

/-! Transitivity and totality of the descending order on optional means,
used for the sortedness of the grouped result. -/

theorem omGe_trans : ∀ {a b c : Option ℚ},
    omGe a b = true → omGe b c = true → omGe a c = true
  | none, none, _, _, h2 => h2
  | none, some _, _, h1, _ => by simp [omGe] at h1
  | some _, _, none, _, _ => rfl
  | some _, none, some _, _, h2 => by simp [omGe] at h2
  | some p, some q, some r, h1, h2 => by
    simp only [omGe, decide_eq_true_iff] at h1 h2 ⊢
    exact le_trans h2 h1

theorem omGe_total : ∀ a b : Option ℚ, omGe a b = true ∨ omGe b a = true
  | none, none => Or.inl rfl
  | none, some _ => Or.inr rfl
  | some _, none => Or.inl rfl
  | some p, some q => by
    simp only [omGe, decide_eq_true_iff]
    exact (le_total q p).imp id id

/-! Basic facts about column access. -/

theorem colIdx_eq_none {c : String} {l : List String} :
    colIdx c l = none ↔ c ∉ l := by
  induction l with
  | nil => simp [colIdx]
  | cons h t ih =>
    by_cases hh : h = c
    · subst hh; simp [colIdx]
    · rw [colIdx, if_neg hh, Option.map_eq_none', ih]
      simp [List.mem_cons, Ne.symm hh]

theorem getCol_eq_none {t : Table} {c : String} :
    getCol t c = none ↔ c ∉ t.cols := by
  unfold getCol
  rw [Option.map_eq_none']
  exact colIdx_eq_none

theorem getCol_isSome {t : Table} {c : String} (h : c ∈ t.cols) :
    ∃ v, getCol t c = some v := by
  rcases hv : getCol t c with _ | v
  · exact absurd (getCol_eq_none.mp hv) (by simpa using h)
  · exact ⟨v, rfl⟩

theorem getCol_length {t : Table} {c : String} {v : List Value}
    (h : getCol t c = some v) : v.length = t.rows.length := by
  unfold getCol at h
  rcases hi : colIdx c t.cols with _ | i
  · rw [hi] at h; simp at h
  · rw [hi] at h
    simp only [Option.map_some', Option.some.injEq] at h
    subst h
    simp

/-! Bounds for the four summary aggregations. -/

theorem foldl_min_le_init : ∀ (xs : List ℚ) (a : ℚ), xs.foldl min a ≤ a
  | [], _ => le_refl _
  | x :: xs, a => le_trans (foldl_min_le_init xs (min a x)) (min_le_left a x)

theorem foldl_min_mem : ∀ (xs : List ℚ) (a : ℚ),
    xs.foldl min a = a ∨ xs.foldl min a ∈ xs
  | [], _ => Or.inl rfl
  | x :: xs, a => by
    rcases foldl_min_mem xs (min a x) with h | h
    · rcases min_choice a x with hm | hm
      · exact Or.inl (by rw [List.foldl_cons, h, hm])
      · exact Or.inr (by rw [List.foldl_cons, h, hm]; exact List.mem_cons_self x xs)
    · exact Or.inr (List.mem_cons_of_mem x h)

theorem foldl_min_le_mem : ∀ {xs : List ℚ} {x : ℚ} (_ : x ∈ xs) (a : ℚ),
    xs.foldl min a ≤ x
  | y :: xs, x, h, a => by
    rcases List.mem_cons.mp h with rfl | h
    · exact le_trans (foldl_min_le_init xs (min a x)) (min_le_right a x)
    · exact foldl_min_le_mem h (min a y)

theorem le_foldl_max_init : ∀ (xs : List ℚ) (a : ℚ), a ≤ xs.foldl max a
  | [], _ => le_refl _
  | x :: xs, a => le_trans (le_max_left a x) (le_foldl_max_init xs (max a x))

theorem foldl_max_mem : ∀ (xs : List ℚ) (a : ℚ),
    xs.foldl max a = a ∨ xs.foldl max a ∈ xs
  | [], _ => Or.inl rfl
  | x :: xs, a => by
    rcases foldl_max_mem xs (max a x) with h | h
    · rcases max_choice a x with hm | hm
      · exact Or.inl (by rw [List.foldl_cons, h, hm])
      · exact Or.inr (by rw [List.foldl_cons, h, hm]; exact List.mem_cons_self x xs)
    · exact Or.inr (List.mem_cons_of_mem x h)

theorem mem_le_foldl_max : ∀ {xs : List ℚ} {x : ℚ} (_ : x ∈ xs) (a : ℚ),
    x ≤ xs.foldl max a
  | y :: xs, x, h, a => by
    rcases List.mem_cons.mp h with rfl | h
    · exact le_trans (le_max_right a x) (le_foldl_max_init xs (max a x))
    · exact mem_le_foldl_max h (max a y)

theorem qMin_spec {l : List ℚ} {m : ℚ} (h : qMin l = some m) :
    m ∈ l ∧ ∀ x ∈ l, m ≤ x := by
  match l, h with
  | x :: xs, h =>
    simp only [qMin, Option.some.injEq] at h
    subst h
    constructor
    · rcases foldl_min_mem xs x with h | h
      · rw [h]; exact List.mem_cons_self x xs
      · exact List.mem_cons_of_mem x h
    · intro y hy
      rcases List.mem_cons.mp hy with rfl | hy
      · exact foldl_min_le_init xs y
      · exact foldl_min_le_mem hy x

theorem qMax_spec {l : List ℚ} {m : ℚ} (h : qMax l = some m) :
    m ∈ l ∧ ∀ x ∈ l, x ≤ m := by
  match l, h with
  | x :: xs, h =>
    simp only [qMax, Option.some.injEq] at h
    subst h
    constructor
    · rcases foldl_max_mem xs x with h | h
      · rw [h]; exact List.mem_cons_self x xs
      · exact List.mem_cons_of_mem x h
    · intro y hy
      rcases List.mem_cons.mp hy with rfl | hy
      · exact le_foldl_max_init xs y
      · exact mem_le_foldl_max hy x

theorem qMean_between {l : List ℚ} {m lo hi : ℚ} (hm : qMean l = some m)
    (hlo : ∀ x ∈ l, lo ≤ x) (hhi : ∀ x ∈ l, x ≤ hi) : lo ≤ m ∧ m ≤ hi := by
  unfold qMean at hm
  by_cases hl : l.length = 0
  · rw [if_pos hl] at hm; exact absurd hm (by simp)
  · rw [if_neg hl] at hm
    have hpos : (0 : ℚ) < l.length := by
      have := Nat.pos_of_ne_zero hl
      exact_mod_cast this
    have hsum_lo : (l.length : ℚ) * lo ≤ l.sum := by
      have := List.card_nsmul_le_sum l lo hlo
      simpa [nsmul_eq_mul] using this
    have hsum_hi : l.sum ≤ (l.length : ℚ) * hi := by
      have := List.sum_le_card_nsmul l hi hhi
      simpa [nsmul_eq_mul] using this
    simp only [Option.some.injEq] at hm
    subst hm
    constructor
    · rw [le_div_iff₀ hpos]
      linarith [hsum_lo]
    · rw [div_le_iff₀ hpos]
      linarith [hsum_hi]

theorem qMedian_between {l : List ℚ} {m lo hi : ℚ} (hm : qMedian l = some m)
    (hlo : ∀ x ∈ l, lo ≤ x) (hhi : ∀ x ∈ l, x ≤ hi) : lo ≤ m ∧ m ≤ hi := by
  unfold qMedian at hm
  set s := l.mergeSort (fun a b => decide (a ≤ b)) with hs
  have hmem : ∀ x ∈ s, x ∈ l := fun x hx => (List.mergeSort_perm l _).mem_iff.mp hx
  have hlen : s.length = l.length := List.length_mergeSort l
  by_cases h0 : s.length = 0
  · rw [if_pos h0] at hm; exact absurd hm (by simp)
  · rw [if_neg h0] at hm
    have hpos : 0 < s.length := Nat.pos_of_ne_zero h0
    have hmid : s.length / 2 < s.length := Nat.div_lt_self hpos (by norm_num)
    have hmem_mid : s.getD (s.length / 2) 0 ∈ l := by
      apply hmem
      rw [List.getD_eq_getElem?_getD, List.getElem?_eq_getElem hmid]
      exact List.getElem_mem _
    by_cases hodd : s.length % 2 = 1
    · rw [if_pos hodd] at hm
      simp only [Option.some.injEq] at hm
      subst hm
      exact ⟨hlo _ hmem_mid, hhi _ hmem_mid⟩
    · rw [if_neg hodd] at hm
      have hmid1 : s.length / 2 - 1 < s.length :=
        lt_of_le_of_lt (Nat.sub_le _ _) hmid
      have hmem_mid1 : s.getD (s.length / 2 - 1) 0 ∈ l := by
        apply hmem
        rw [List.getD_eq_getElem?_getD, List.getElem?_eq_getElem hmid1]
        exact List.getElem_mem _
      simp only [Option.some.injEq] at hm
      subst hm
      constructor
      · have h1 := hlo _ hmem_mid1
        have h2 := hlo _ hmem_mid
        linarith
      · have h1 := hhi _ hmem_mid1
        have h2 := hhi _ hmem_mid
        linarith

/-! Concrete tables used to instantiate the theorems. -/

/-- Table with Region = [A, A, B] and GHI = [10, 30, 20]. -/
def exGrouped : Table :=
  ⟨["Region", "GHI"], [[.str "A", .num 10], [.str "A", .num 30], [.str "B", .num 20]]⟩

/-- Table with Region = [B, B, A] and GHI = [10, 30, 20]; both group means
are 20. -/
def exTies : Table :=
  ⟨["Region", "GHI"], [[.str "B", .num 10], [.str "B", .num 30], [.str "A", .num 20]]⟩

/-- Table with a single numeric column GHI = [10, 20, 30] and no Region. -/
def exPlain : Table := ⟨["GHI"], [[.num 10], [.num 20], [.num 30]]⟩

/-- Table whose only column holds no valid numeric value. -/
def exNoNums : Table := ⟨["GHI"], [[.na], [.str "x"]]⟩

/-- Table without a Region column whose only column name contains the text
Region as a proper substring. -/
def exRegional : Table := ⟨["Regional"], [[.num 1]]⟩

/-- C5: for every table whose KPI column holds at least one valid numeric
value, the four summary scalars of compute_summary are all defined and
satisfy min ≤ median ≤ max and min ≤ average ≤ max, where average is the
arithmetic mean, median the middle of the sorted data (mean of the two
middle values for even counts), and max and min the extrema. -/
theorem C5_summary_bounds (t : Table) (c : String) (vals : List Value)
    (S : Summary) (hv : getCol t c = some vals) (hne : numsOf vals ≠ [])
    (hS : compute_summary t c = some S) :
    ∃ av md hi lo : ℚ,
      S.average = some av ∧ S.median = some md ∧
      S.maxv = some hi ∧ S.minv = some lo ∧
      lo ≤ md ∧ md ≤ hi ∧ lo ≤ av ∧ av ≤ hi := by
  unfold compute_summary at hS
  rw [hv] at hS
  simp only [Option.map_some', Option.some.injEq] at hS
  subst hS
  obtain ⟨x, xs, hxs⟩ : ∃ x xs, numsOf vals = x :: xs := by
    rcases hn : numsOf vals with _ | ⟨x, xs⟩
    · exact absurd hn hne
    · exact ⟨x, xs, rfl⟩
  have hqmin : qMin (numsOf vals) = some (xs.foldl min x) := by rw [hxs]; rfl
  have hqmax : qMax (numsOf vals) = some (xs.foldl max x) := by rw [hxs]; rfl
  have hlen : (numsOf vals).length ≠ 0 := by rw [hxs]; simp
  have hqmean : qMean (numsOf vals) =
      some ((numsOf vals).sum / (numsOf vals).length) := by
    unfold qMean; rw [if_neg hlen]
  obtain ⟨md, hqmed⟩ : ∃ md, qMedian (numsOf vals) = some md := by
    unfold qMedian
    have hslen : ((numsOf vals).mergeSort (fun a b => decide (a ≤ b))).length ≠ 0 := by
      rw [List.length_mergeSort]; exact hlen
    rw [if_neg hslen]
    by_cases hodd : ((numsOf vals).mergeSort (fun a b => decide (a ≤ b))).length % 2 = 1
    · rw [if_pos hodd]; exact ⟨_, rfl⟩
    · rw [if_neg hodd]; exact ⟨_, rfl⟩
  have hlo := qMin_spec hqmin
  have hhi := qMax_spec hqmax
  have hmean := qMean_between hqmean hlo.2 hhi.2
  have hmed := qMedian_between hqmed hlo.2 hhi.2
  exact ⟨_, md, _, _, hqmean, hqmed, hqmax, hqmin,
    hmed.1, hmed.2, hmean.1, hmean.2⟩

/-- Witness for C5 at the spec example GHI = [10, 20, 30]: average 20,
median 20, max 30, min 10, and the chained bounds hold. -/
theorem C5_summary_bounds_witness :
    ∃ av md hi lo : ℚ,
      (Summary.mk (some 20) (some 20) (some 30) (some 10)).average = some av ∧
      (Summary.mk (some 20) (some 20) (some 30) (some 10)).median = some md ∧
      (Summary.mk (some 20) (some 20) (some 30) (some 10)).maxv = some hi ∧
      (Summary.mk (some 20) (some 20) (some 30) (some 10)).minv = some lo ∧
      lo ≤ md ∧ md ≤ hi ∧ lo ≤ av ∧ av ≤ hi :=
  C5_summary_bounds exPlain "GHI" [.num 10, .num 20, .num 30]
    (Summary.mk (some 20) (some 20) (some 30) (some 10))
    (by decide) (by decide) (by decide)

/-- C7: when the KPI column holds no valid numeric value, compute_summary
still succeeds and all four summary scalars are the undefined (NaN)
marker. -/
theorem C7_all_nan_summary (t : Table) (c : String) (vals : List Value)
    (hv : getCol t c = some vals) (hnone : numsOf vals = []) :
    compute_summary t c = some (Summary.mk none none none none) := by
  unfold compute_summary
  rw [hv]
  simp [hnone, qMean, qMedian, qMax, qMin]

/-- Witness for C7 at a column holding only NaN and text cells. -/
theorem C7_all_nan_summary_witness :
    compute_summary exNoNums "GHI" = some (Summary.mk none none none none) :=
  C7_all_nan_summary exNoNums "GHI" [.na, .str "x"] (by decide) (by decide)

/-! Shape of the top_regions result in its two modes. -/

theorem getCol_mem {t : Table} {c : String} {v : List Value}
    (h : getCol t c = some v) : c ∈ t.cols := by
  by_contra hc
  rw [getCol_eq_none.mpr hc] at h
  exact Option.noConfusion h

theorem renameCol_Region (c : String) : renameCol c "Region" = "Region" := rfl

theorem renameCol_index (c : String) : renameCol c "index" = "Index" := rfl

theorem topRegions_grouped_eq {df : Table} {column : String} {n : Nat}
    {region vals : List Value} (hR : "Region" ∈ df.cols)
    (hreg : getCol df "Region" = some region)
    (hv : getCol df column = some vals) :
    topRegions df column n = some
      { cols := ["Region", renameCol column column]
        rows := (((groupMeans region vals).mergeSort
            (fun a b => omGe a.2 b.2)).take n).map (fun p => [p.1, omVal p.2]) } := by
  unfold topRegions
  rw [if_pos hR, hreg, hv]
  simp [renameCol_Region]

theorem topRegions_fallback_eq {df : Table} {column : String} {n : Nat}
    {vals : List Value} (hR : "Region" ∉ df.cols)
    (hv : getCol df column = some vals) :
    topRegions df column n = some
      { cols := ["Index", renameCol column column]
        rows := ((vals.enum.mergeSort
            (fun a b => vge a.2 b.2)).take n).map
          (fun p => [Value.num (p.1 : ℚ), p.2]) } := by
  unfold topRegions
  rw [if_neg hR, hv]
  simp [renameCol_index]

/-- C3: top_regions fails with the column-not-found error exactly when the
ranking column is absent from the table; in particular when the ranking
column exists the call always succeeds, whether or not a Region column
exists. -/
theorem C3_error_iff_column_missing (df : Table) (column : String) (n : Nat) :
    topRegions df column n = none ↔ column ∉ df.cols := by
  constructor
  · intro h hc
    obtain ⟨vals, hv⟩ := getCol_isSome hc
    by_cases hR : "Region" ∈ df.cols
    · obtain ⟨region, hreg⟩ := getCol_isSome hR
      rw [topRegions_grouped_eq hR hreg hv] at h
      exact Option.noConfusion h
    · rw [topRegions_fallback_eq hR hv] at h
      exact Option.noConfusion h
  · intro hc
    unfold topRegions
    by_cases hR : "Region" ∈ df.cols
    · rw [if_pos hR]
      obtain ⟨region, hreg⟩ := getCol_isSome hR
      rw [hreg, getCol_eq_none.mpr hc]
    · rw [if_neg hR, getCol_eq_none.mpr hc]

/-- C9: a call to top_regions leaves the caller's table unchanged: in the
state-passing rendering of the call, the final binding of df is the input
table and the returned value is exactly the top_regions result. -/
theorem C9_input_table_unchanged (df : Table) (column : String) (n : Nat) :
    (topRegionsRun df column n).2 = df ∧
    (topRegionsRun df column n).1 = topRegions df column n := by
  constructor
  · unfold topRegionsRun
    split
    · split <;> rfl
    · split <;> rfl
  · unfold topRegionsRun topRegions
    split
    · split <;> rfl
    · split <;> rfl

/-- C10: the ranked top table rendered by the dashboard is independent of the
grouping column selected in the sidebar: two runs that differ only in that
selection (including selecting none) produce identical results, because
display_main_content always calls top_regions without the selection and
top_regions groups by the fixed column named Region whenever it exists. -/
theorem C10_grouping_selection_noninterference (df : Table) (kpi : String)
    (x y : Option String) :
    display_main_content_top df kpi x = display_main_content_top df kpi y ∧
    display_main_content_top df kpi x = topRegions df kpi 10 :=
  ⟨rfl, rfl⟩

/-- C4: the top_regions result never holds more than n rows; in grouped mode
its row count is exactly the minimum of n and the number of distinct
non-missing groups, and in fallback mode exactly the minimum of n and the
number of rows, so when fewer than n exist all of them are returned. -/
theorem C4_result_length (df : Table) (column : String) (n : Nat) (T : Table)
    (h : topRegions df column n = some T) :
    T.rows.length ≤ n ∧
    (∀ region, "Region" ∈ df.cols → getCol df "Region" = some region →
      T.rows.length =
        min n ((region.filter (fun v => v != Value.na)).dedup).length) ∧
    ("Region" ∉ df.cols → T.rows.length = min n df.rows.length) := by
  by_cases hR : "Region" ∈ df.cols
  · obtain ⟨region, hreg⟩ := getCol_isSome hR
    rcases hv : getCol df column with _ | vals
    · exfalso
      unfold topRegions at h
      rw [if_pos hR, hreg, hv] at h
      exact Option.noConfusion h
    · rw [topRegions_grouped_eq hR hreg hv] at h
      simp only [Option.some.injEq] at h
      subst h
      have hlen : (((groupMeans region vals).mergeSort
          (fun a b => omGe a.2 b.2)).take n).length =
          min n ((region.filter (fun v => v != Value.na)).dedup).length := by
        rw [List.length_take, List.length_mergeSort]
        unfold groupMeans groupKeys
        rw [List.length_map, List.length_mergeSort]
      refine ⟨?_, ?_, ?_⟩
      · simp only [List.length_map, hlen]
        exact Nat.min_le_left _ _
      · intro region' _ hreg'
        rw [hreg] at hreg'
        cases hreg'
        simp only [List.length_map, hlen]
      · intro hc; exact absurd hR hc
  · rcases hv : getCol df column with _ | vals
    · exfalso
      unfold topRegions at h
      rw [if_neg hR, hv] at h
      exact Option.noConfusion h
    · rw [topRegions_fallback_eq hR hv] at h
      simp only [Option.some.injEq] at h
      subst h
      have hlen : ((vals.enum.mergeSort (fun a b => vge a.2 b.2)).take n).length =
          min n df.rows.length := by
        rw [List.length_take, List.length_mergeSort, List.enum_length,
          getCol_length hv]
      refine ⟨?_, ?_, ?_⟩
      · simp only [List.length_map, hlen]
        exact Nat.min_le_left _ _
      · intro region' hmem _
        exact absurd hmem hR
      · intro _
        simp only [List.length_map, hlen]

/-- Witness for C4 at the grouped example table with n = 1. -/
theorem C4_result_length_witness :
    ∃ T, topRegions exGrouped "GHI" 1 = some T ∧ T.rows.length ≤ 1 := by
  have h : topRegions exGrouped "GHI" 1 =
      some ⟨["Region", "GHI"], [[.str "A", .num 20]]⟩ := by decide
  exact ⟨_, h, (C4_result_length _ _ _ _ h).1⟩

/-! Facts about the group keys and group means. -/

theorem groupKeys_nodup (region : List Value) : (groupKeys region).Nodup :=
  (List.mergeSort_perm _ _).nodup_iff.mpr
    (List.nodup_dedup _)

theorem groupKeys_mem {region : List Value} {k : Value} :
    k ∈ groupKeys region ↔ k ∈ region ∧ k ≠ Value.na := by
  unfold groupKeys
  rw [List.mem_mergeSort, List.mem_dedup, List.mem_filter]
  simp [bne_iff_ne]

theorem omGe_snd_trans (a b c : Value × Option ℚ) (h1 : omGe a.2 b.2)
    (h2 : omGe b.2 c.2) : omGe a.2 c.2 = true := omGe_trans h1 h2

theorem omGe_snd_total (a b : Value × Option ℚ) :
    (omGe a.2 b.2 || omGe b.2 a.2) = true := by
  rcases omGe_total a.2 b.2 with h | h <;> simp [h]

/-- C6 counterexample: for Region = [B, B, A] with GHI = [10, 30, 20] both
group means are 20, yet grouped top_regions lists A before B, while the
first-encountered group order is B before A; so ties are NOT broken by
first-encountered group order. -/
theorem C6_counterexample :
    getCol exTies "Region" =
      some [Value.str "B", Value.str "B", Value.str "A"] ∧
    firstSeen [Value.str "B", Value.str "B", Value.str "A"] =
      [Value.str "B", Value.str "A"] ∧
    (topRegions exTies "GHI" 10).map Table.rows =
      some [[Value.str "A", Value.num 20], [Value.str "B", Value.num 20]] ∧
    (topRegions exTies "GHI" 10).map Table.rows ≠
      some [[Value.str "B", Value.num 20], [Value.str "A", Value.num 20]] :=
  ⟨by decide, by decide, by decide, by decide⟩

/-- C6 amended: when two or more groups have exactly equal means the result
order is deterministic but is not the first-encountered group order; at the
example of the claim, Region = [A, A, B] with GHI = [10, 30, 20] and n = 10,
grouped top_regions returns exactly the pairs (A, 20) then (B, 20). -/
theorem C6_example_tie_result :
    topRegions exGrouped "GHI" 10 =
      some ⟨["Region", "GHI"],
        [[Value.str "A", Value.num 20], [Value.str "B", Value.num 20]]⟩ := by
  decide

theorem qMean_isSome {l : List ℚ} (h : l ≠ []) : ∃ m, qMean l = some m := by
  unfold qMean
  rw [if_neg (by simpa using h)]
  exact ⟨_, rfl⟩

theorem groupMeans_isSome {region vals : List Value}
    (hlen : region.length = vals.length)
    (hnum : ∀ v ∈ vals, (Value.toNum v).isSome = true) :
    ∀ p ∈ groupMeans region vals, ∃ m, p.2 = some m := by
  intro p hp
  unfold groupMeans at hp
  rcases List.mem_map.mp hp with ⟨k, hk, rfl⟩
  have hkr : k ∈ region := (groupKeys_mem.mp hk).1
  rcases List.mem_iff_getElem.mp hkr with ⟨i, hi, hik⟩
  have hiv : i < vals.length := hlen ▸ hi
  have hz : (k, vals[i]) ∈ region.zip vals := by
    apply List.mem_iff_getElem?.mpr
    refine ⟨i, List.getElem?_zip_eq_some.mpr ⟨?_, ?_⟩⟩
    · rw [List.getElem?_eq_getElem hi, hik]
    · rw [List.getElem?_eq_getElem hiv]
  have hg : vals[i] ∈ groupRows region vals k := by
    unfold groupRows
    refine List.mem_map.mpr ⟨(k, vals[i]), ?_, rfl⟩
    refine List.mem_filter.mpr ⟨hz, ?_⟩
    simp
  obtain ⟨q, hq⟩ := Option.isSome_iff_exists.mp (hnum _ (List.getElem_mem hiv))
  have hqm : q ∈ numsOf (groupRows region vals k) :=
    List.mem_filterMap.mpr ⟨vals[i], hg, hq⟩
  exact qMean_isSome (List.ne_nil_of_mem hqm)

/-- C1: in grouped mode with a missing-free grouping column and a numeric
ranking column, the top_regions result is the n-prefix of a list that pairs
every distinct group exactly once with the arithmetic mean of the ranking
column over precisely the rows of that group, sorted non-increasing by that
mean. -/
theorem C1_grouped_means (df : Table) (column : String) (n : Nat) (T : Table)
    (region vals : List Value) (hR : "Region" ∈ df.cols)
    (hreg : getCol df "Region" = some region)
    (hv : getCol df column = some vals)
    (hna : ∀ v ∈ region, v ≠ Value.na)
    (hnum : ∀ v ∈ vals, (Value.toNum v).isSome = true)
    (h : topRegions df column n = some T) :
    ∃ full : List (Value × ℚ),
      (full.map Prod.fst).Nodup ∧
      (∀ k, k ∈ full.map Prod.fst ↔ k ∈ region) ∧
      (∀ p ∈ full, qMean (numsOf (groupRows region vals p.1)) = some p.2) ∧
      full.Pairwise (fun a b => b.2 ≤ a.2) ∧
      T.rows = (full.take n).map (fun p => [p.1, Value.num p.2]) := by
  have hlen : region.length = vals.length := by
    rw [getCol_length hreg, getCol_length hv]
  have hperm : (groupMeans region vals).mergeSort (fun a b => omGe a.2 b.2)
      |>.Perm (groupMeans region vals) := List.mergeSort_perm _ _
  have hsome : ∀ p ∈ (groupMeans region vals).mergeSort
      (fun a b => omGe a.2 b.2), ∃ m, p.2 = some m := fun p hp =>
    groupMeans_isSome hlen hnum p (hperm.mem_iff.mp hp)
  have hgmfst : (groupMeans region vals).map Prod.fst = groupKeys region := by
    unfold groupMeans
    rw [List.map_map]
    exact List.map_id _
  have hfst : ((groupMeans region vals).mergeSort
        (fun a b => omGe a.2 b.2)).map Prod.fst |>.Perm (groupKeys region) := by
    rw [← hgmfst]
    exact hperm.map _
  refine ⟨((groupMeans region vals).mergeSort (fun a b => omGe a.2 b.2)).map
    (fun p => (p.1, p.2.getD 0)), ?_, ?_, ?_, ?_, ?_⟩
  · rw [List.map_map]
    exact hfst.nodup_iff.mpr (groupKeys_nodup region)
  · intro k
    rw [List.map_map]
    have hmem : k ∈ ((groupMeans region vals).mergeSort
        (fun a b => omGe a.2 b.2)).map Prod.fst ↔ k ∈ groupKeys region :=
      hfst.mem_iff
    rw [show (Prod.fst ∘ fun p : Value × Option ℚ => (p.1, p.2.getD 0)) =
      Prod.fst from rfl]
    rw [hmem, groupKeys_mem]
    exact ⟨fun hk => hk.1, fun hk => ⟨hk, hna k hk⟩⟩
  · intro p hp
    rcases List.mem_map.mp hp with ⟨p', hp', rfl⟩
    obtain ⟨m, hm⟩ := hsome p' hp'
    rcases List.mem_map.mp (hperm.mem_iff.mp hp') with ⟨k, hk, rfl⟩
    simp only at hm ⊢
    rw [hm, Option.getD_some]
  · have hsorted : ((groupMeans region vals).mergeSort
        (fun a b => omGe a.2 b.2)).Pairwise
        (fun a b => omGe a.2 b.2 = true) := by
      have hgen : ∀ l : List (Value × Option ℚ),
          (l.mergeSort (fun a b => omGe a.2 b.2)).Pairwise
            (fun a b => omGe a.2 b.2 = true) := fun l =>
        List.sorted_mergeSort omGe_snd_trans omGe_snd_total l
      exact hgen _
    rw [List.pairwise_map]
    refine hsorted.imp_of_mem ?_
    intro a b ha hb hab
    obtain ⟨ma, hma⟩ := hsome a ha
    obtain ⟨mb, hmb⟩ := hsome b hb
    rw [hma, hmb] at hab
    simp only [omGe, decide_eq_true_eq] at hab
    simp only [hma, hmb, Option.getD_some]
    exact hab
  · rw [topRegions_grouped_eq hR hreg hv] at h
    simp only [Option.some.injEq] at h
    subst h
    rw [← List.map_take, List.map_map]
    apply List.map_congr_left
    intro p hp
    obtain ⟨m, hm⟩ := hsome p (List.mem_of_mem_take hp)
    simp only [Function.comp_apply, hm, Option.getD_some, omVal]

/-- Witness for C1 at the grouped example Region = [A, A, B],
GHI = [10, 30, 20] with n = 10. -/
theorem C1_grouped_means_witness :
    ∃ full : List (Value × ℚ),
      (full.map Prod.fst).Nodup ∧
      (∀ k, k ∈ full.map Prod.fst ↔
        k ∈ [Value.str "A", Value.str "A", Value.str "B"]) ∧
      (∀ p ∈ full,
        qMean (numsOf (groupRows [Value.str "A", Value.str "A", Value.str "B"]
          [Value.num 10, Value.num 30, Value.num 20] p.1)) = some p.2) ∧
      full.Pairwise (fun a b => b.2 ≤ a.2) ∧
      (Table.mk ["Region", "GHI"]
          [[Value.str "A", Value.num 20], [Value.str "B", Value.num 20]]).rows =
        (full.take 10).map (fun p => [p.1, Value.num p.2]) := by
  have h : topRegions exGrouped "GHI" 10 =
      some ⟨["Region", "GHI"],
        [[Value.str "A", Value.num 20], [Value.str "B", Value.num 20]]⟩ := by
    decide
  exact C1_grouped_means exGrouped "GHI" 10 _
    [Value.str "A", Value.str "A", Value.str "B"]
    [Value.num 10, Value.num 30, Value.num 20] (by decide) (by decide)
    (by decide) (by decide) (by decide) h

/-- C8 counterexample: for a table whose only column is named Regional (so
there is no Region column and top_regions falls back to row order), the value
column of the result is relabelled Region instead of keeping the ranking
column name Regional, because the renaming tests substring containment. -/
theorem C8_counterexample :
    ("Region" : String) ∉ exRegional.cols ∧
    (topRegions exRegional "Regional" 10).map Table.cols =
      some ["Index", "Region"] ∧
    (topRegions exRegional "Regional" 10).map Table.cols ≠
      some ["Index", "Regional"] :=
  ⟨by decide, by decide, by decide⟩

/-- C8 amended: provided the ranking column name contains neither the text
Region nor the text index, the key column of the top_regions result is
labelled Region in grouped mode and Index in fallback mode, and the value
column keeps the ranking column name; a ranking column name containing one
of those texts is instead relabelled Region or Index. -/
theorem C8_column_labels (df : Table) (column : String) (n : Nat) (T : Table)
    (hcR : strContains column "Region" = false)
    (hci : strContains column "index" = false)
    (h : topRegions df column n = some T) :
    T.cols = if "Region" ∈ df.cols then ["Region", column]
      else ["Index", column] := by
  have hrc : renameCol column column = column := by
    unfold renameCol
    rw [hcR, hci]
    rfl
  by_cases hR : "Region" ∈ df.cols
  · obtain ⟨region, hreg⟩ := getCol_isSome hR
    rcases hv : getCol df column with _ | vals
    · exfalso
      unfold topRegions at h
      rw [if_pos hR, hreg, hv] at h
      exact Option.noConfusion h
    · rw [topRegions_grouped_eq hR hreg hv] at h
      simp only [Option.some.injEq] at h
      subst h
      rw [if_pos hR, hrc]
  · rcases hv : getCol df column with _ | vals
    · exfalso
      unfold topRegions at h
      rw [if_neg hR, hv] at h
      exact Option.noConfusion h
    · rw [topRegions_fallback_eq hR hv] at h
      simp only [Option.some.injEq] at h
      subst h
      rw [if_neg hR, hrc]

/-- Witness for C8 at the plain fallback table with column GHI. -/
theorem C8_column_labels_witness :
    ∃ T, topRegions exPlain "GHI" 2 = some T ∧
      T.cols = if "Region" ∈ exPlain.cols then ["Region", "GHI"]
        else ["Index", "GHI"] := by
  have h : topRegions exPlain "GHI" 2 =
      some ⟨["Index", "GHI"],
        [[Value.num 2, Value.num 30], [Value.num 1, Value.num 20]]⟩ := by decide
  exact ⟨_, h, C8_column_labels exPlain "GHI" 2 _ (by decide) (by decide) h⟩

end Solar
